import Mathlib

/-!
Verification of the Z80-Assembler-2 repository: a shallow embedding of the
Intel-Hex record decoder (`intel_hex_loader.py`), the responder protocol
handler (`main.py`), and the initiator transfer logic
(`pico_serial_loader.py`), together with theorems settling the frozen
claims about the natural-language specification.
-/

namespace Z80Hex

/-! ### Hexadecimal character utilities (embedding Python's int(s,16) / regex) -/

/-- A character accepted by the regex `[0-9A-Fa-f]` in `_parse_line`. -/
def isHexChar (c : Char) : Bool :=
  ('0' ≤ c && c ≤ '9') || ('A' ≤ c && c ≤ 'F') || ('a' ≤ c && c ≤ 'f')

/-- Numeric value of a hex digit (0 for non-digits; callers guard with
`isHexChar`). -/
def hexVal (c : Char) : Nat :=
  if '0' ≤ c && c ≤ '9' then c.toNat - 48
  else if 'A' ≤ c && c ≤ 'F' then c.toNat - 55
  else if 'a' ≤ c && c ≤ 'f' then c.toNat - 87
  else 0

/-- Upper-case hex digit for a value below 16 (used by the record encoder). -/
def hexDigitChar (n : Nat) : Char :=
  match n with
  | 0 => '0' | 1 => '1' | 2 => '2' | 3 => '3'
  | 4 => '4' | 5 => '5' | 6 => '6' | 7 => '7'
  | 8 => '8' | 9 => '9' | 10 => 'A' | 11 => 'B'
  | 12 => 'C' | 13 => 'D' | 14 => 'E' | _ => 'F'

/-- Parse a run of hex digits, most significant first: `int(s, 16)`. -/
def parseHex (l : List Char) : Nat :=
  l.foldl (fun a c => 16 * a + hexVal c) 0

/-- Two-digit upper-case hex rendering of a byte. -/
def toHex2 (n : Nat) : List Char :=
  [hexDigitChar (n / 16 % 16), hexDigitChar (n % 16)]

/-- Four-digit upper-case hex rendering of a 16-bit value. -/
def toHex4 (n : Nat) : List Char :=
  [hexDigitChar (n / 4096 % 16), hexDigitChar (n / 256 % 16),
   hexDigitChar (n / 16 % 16), hexDigitChar (n % 16)]

/-- Decode consecutive hex-digit pairs into bytes: `bytes.fromhex`. -/
def hexPairs : List Char → List Nat
  | a :: b :: rest => (16 * hexVal a + hexVal b) :: hexPairs rest
  | _ => []

/-! ### Record model (embedding `RecordType`, `HexRecord`) -/

/-- The closed record-type enumeration of `intel_hex_loader.py`. -/
inductive RecordType where
  | data
  | endOfFile
  | extSegmentAddr
  | startSegmentAddr
  | extLinearAddr
  | startLinearAddr
deriving DecidableEq, Repr

/-- `RecordType(value)`: succeeds exactly on the codes 0..5. -/
def RecordType.ofNat? : Nat → Option RecordType
  | 0 => some .data
  | 1 => some .endOfFile
  | 2 => some .extSegmentAddr
  | 3 => some .startSegmentAddr
  | 4 => some .extLinearAddr
  | 5 => some .startLinearAddr
  | _ => none

/-- Numeric code of a record type (the IntEnum value). -/
def RecordType.toNat : RecordType → Nat
  | .data => 0
  | .endOfFile => 1
  | .extSegmentAddr => 2
  | .startSegmentAddr => 3
  | .extLinearAddr => 4
  | .startLinearAddr => 5

/-- The `HexRecord` dataclass. -/
structure HexRecord where
  length : Nat
  address : Nat
  recordType : RecordType
  data : List Nat
  checksum : Nat
  lineNumber : Nat
deriving DecidableEq, Repr

/-- The distinct `ValueError` causes raised by the loader, each carrying the
offending line number as the Python messages do. -/
inductive HexError where
  | noSentinel (line : Nat)
  | tooShort (line : Nat)
  | invalidChars (line : Nat)
  | badRecordType (line : Nat)
  | dataLength (line : Nat)
  | checksum (line expected actual : Nat)
  | extLinearLen (line : Nat)
  | extSegmentLen (line : Nat)
  | startLinearLen (line : Nat)
deriving DecidableEq, Repr

/-- `_calculate_checksum`: two's complement of the byte-wise sum, mod 256. -/
def calcChecksum (length address typeCode : Nat) (data : List Nat) : Nat :=
  (256 - (length + (address >>> 8) % 256 + address % 256 + typeCode
    + data.sum) % 256) % 256

/-- `_parse_line`: decode one line (given as its character list) into a
record, with the exact check order and error causes of the source. -/
def decodeLine (line : List Char) (ln : Nat) : Except HexError HexRecord :=
  match line with
  | [] => .error (.noSentinel ln)
  | c :: rest =>
    if c ≠ ':' then .error (.noSentinel ln)
    else if line.length < 11 then .error (.tooShort ln)
    else if ¬ rest.all isHexChar then .error (.invalidChars ln)
    else
      let len := parseHex (rest.take 2)
      let address := parseHex ((rest.drop 2).take 4)
      let tval := parseHex ((rest.drop 6).take 2)
      if RecordType.ofNat? tval = none then .error (.badRecordType ln)
      else if line.length < 9 + 2 * len + 2 then .error (.dataLength ln)
      else
        let data := hexPairs ((rest.drop 8).take (2 * len))
        let cks := parseHex ((rest.drop (8 + 2 * len)).take 2)
        let expect := calcChecksum len address tval data
        if expect ≠ cks then .error (.checksum ln expect cks)
        else .ok ⟨len, address, (RecordType.ofNat? tval).getD .data, data, cks, ln⟩

/-! ### Memory image (embedding the `memory` dict and `_process_record`) -/

/-- Sparse memory: an association list with unique keys, newest first. -/
abbrev Mem := List (Nat × Nat)

/-- Dictionary lookup `memory.get(a)`. -/
def memGet (m : Mem) (a : Nat) : Option Nat :=
  match m with
  | [] => none
  | p :: rest => if p.1 = a then some p.2 else memGet rest a

/-- Dictionary assignment `memory[a] = v`. -/
def memSet (m : Mem) (a v : Nat) : Mem :=
  (a, v) :: (m : List (Nat × Nat)).filter (fun p => p.1 ≠ a)

/-- The key set `memory.keys()` (order irrelevant for min/max queries). -/
def memKeys (m : Mem) : List Nat := (m : List (Nat × Nat)).map Prod.fst

/-- Store the payload bytes of a data record at consecutive addresses
(the `for i, byte in enumerate(record.data)` loop). -/
def storeDataGo (m : Mem) (addr : Nat) : List Nat → Mem
  | [] => m
  | b :: rest => storeDataGo (memSet m addr b) (addr + 1) rest

/-- The loader state mutated by `_process_record`. -/
structure LoaderState where
  memory : Mem
  extLinear : Nat
  extSegment : Nat
  startAddress : Option Nat
deriving Repr

/-- State at the start of a decode session (`_parse_lines` clears it). -/
def initState : LoaderState := ⟨[], 0, 0, none⟩

/-- `_process_record`: fold one record into the loader state. -/
def processRecord (st : LoaderState) (r : HexRecord) : Except HexError LoaderState :=
  match r.recordType with
  | .data =>
    let base := (st.extLinear <<< 16) + st.extSegment + r.address
    .ok { st with memory := storeDataGo st.memory base r.data }
  | .extLinearAddr =>
    if r.data.length ≠ 2 then .error (.extLinearLen r.lineNumber)
    else .ok { st with extLinear := (r.data.getD 0 0) <<< 8 ||| r.data.getD 1 0 }
  | .extSegmentAddr =>
    if r.data.length ≠ 2 then .error (.extSegmentLen r.lineNumber)
    else .ok { st with
      extSegment := ((r.data.getD 0 0) <<< 8 ||| r.data.getD 1 0) <<< 4 }
  | .startLinearAddr =>
    if r.data.length ≠ 4 then .error (.startLinearLen r.lineNumber)
    else .ok { st with
      startAddress := some ((r.data.getD 0 0) <<< 24 ||| (r.data.getD 1 0) <<< 16
        ||| (r.data.getD 2 0) <<< 8 ||| r.data.getD 3 0) }
  | _ => .ok st

/-- One iteration of the `_parse_lines` loop: decode the line, then fold the
record into the state; either step may raise. -/
def parseStep (st : LoaderState) (n : Nat) (l : List Char) :
    Except HexError LoaderState :=
  match decodeLine l n with
  | .error e => .error e
  | .ok r => processRecord st r

/-- The loop of `_parse_lines` from a given state and line number: process
each line, stop at the first error.  The returned state is the object state
observable after the call (the Python exception propagates, leaving the
fields as they were at the failure). -/
def parseLinesGo (st : LoaderState) (n : Nat) :
    List (List Char) → LoaderState × Option HexError
  | [] => (st, none)
  | l :: rest =>
    match parseStep st n l with
    | .error e => (st, some e)
    | .ok st' => parseLinesGo st' (n + 1) rest

/-- `_parse_lines`: reset the session state, then process the lines with
1-based line numbers. -/
def parseLines (lines : List (List Char)) : LoaderState × Option HexError :=
  parseLinesGo initState 1 lines

/-- `to_binary`: flatten the sparse image to a dense byte sequence over
`[start, end]`, defaulting to the observed min/max key, filling gaps. -/
def to_binary (m : Mem) (fill : Nat) (s? e? : Option Nat) : List Nat :=
  if (m : List (Nat × Nat)).isEmpty then []
  else
    let minA := match s? with
      | some s => s
      | none => ((memKeys m).min?).getD 0
    let maxA := match e? with
      | some e => e
      | none => ((memKeys m).max?).getD 0
    (List.range (maxA + 1 - minA)).map (fun i => (memGet m (minA + i)).getD fill)

/-- Encoder used to state the checksum round-trip law: the structurally
well-formed line `:LLAAAATTDD..DDCC` built from explicit field values. -/
def encodeLine (len addr ty cks : Nat) (data : List Nat) : List Char :=
  ':' :: (toHex2 len ++ (toHex4 addr ++ (toHex2 ty ++
    (data.flatMap toHex2 ++ toHex2 cks))))

/-! ### Responder line reassembly (`PicoHexLoader.read_line` in `main.py`) -/

/-- UTF-8 continuation byte test (`0x80..0xBF`). -/
def contByte (b : Nat) : Bool := 128 ≤ b && b < 192

/-- Strict UTF-8 validity of a byte sequence, as Python's
`bytes.decode(utf-8)` requires: no overlong forms, no surrogates,
nothing above U+10FFFF. -/
def utf8ValidFuel : Nat → List Nat → Bool
  | _, [] => true
  | 0, _ :: _ => false
  | fuel + 1, b :: rest =>
    if b < 128 then utf8ValidFuel fuel rest
    else if b < 194 then false
    else if b ≤ 223 then
      match rest with
      | c :: r => contByte c && utf8ValidFuel fuel r
      | [] => false
    else if b ≤ 239 then
      match rest with
      | c1 :: c2 :: r =>
        (if b = 224 then (160 ≤ c1 && c1 < 192)
         else if b = 237 then (128 ≤ c1 && c1 < 160)
         else contByte c1) && contByte c2 && utf8ValidFuel fuel r
      | _ => false
    else if b ≤ 244 then
      match rest with
      | c1 :: c2 :: c3 :: r =>
        (if b = 240 then (144 ≤ c1 && c1 < 192)
         else if b = 244 then (128 ≤ c1 && c1 < 144)
         else contByte c1) && contByte c2 && contByte c3 && utf8ValidFuel fuel r
      | _ => false
    else false

/-- Validity entry point: the fuel bound `l.length` is always sufficient
since every step consumes at least one byte. -/
def utf8Valid (l : List Nat) : Bool := utf8ValidFuel l.length l

/-- Remove one trailing carriage return, as `line_data.endswith(b'\r')`. -/
def stripCR (l : List Nat) : List Nat :=
  if l.getLast? = some 13 then l.dropLast else l

/-- `read_line`: append newly received bytes to the buffer, discard the whole
buffer if it exceeds 1024 bytes, else split at the first newline; the result
is the new buffer contents paired with the decoded line, if any. -/
def read_line (buf newData : List Nat) : List Nat × Option (List Nat) :=
  let b := buf ++ newData
  if 1024 < b.length then ([], none)
  else
    match b.findIdx? (fun x => x = 10) with
    | some pos =>
      let lineData := stripCR (b.take pos)
      if utf8Valid lineData then (b.drop (pos + 1), some lineData)
      else (b.drop (pos + 1), none)
    | none => (b, none)

/-! ### Responder write handling (`handle_write_command` in `main.py`) -/

/-- Responses emitted by the responder (only the ones these claims need). -/
inductive Resp where
  | okWrite
deriving DecidableEq, Repr

/-- `handle_write_command`: the ordered (address, byte) pairs passed to the
actuation collaborator, each address masked to 8 bits as in the source, and
the response line(s) sent afterwards. -/
def handle_write_command (startAddress length : Nat) (data : List Nat) :
    List (Nat × Nat) × List Resp :=
  ((List.range length).map (fun i => ((startAddress + i) &&& 255, data.getD i 0)),
    [.okWrite])

/-! ### Initiator chunking (`transfer_hex_file` loop in `pico_serial_loader.py`) -/

/-- Inner state of the chunking walk: the current chunk is the consecutive
run `[start, start + cnt)`; an element extends it only while `cnt` is below
the chunk size and the address is exactly the next consecutive one. -/
def chunksGo (csize start cnt : Nat) : List Nat → List (Nat × Nat)
  | [] => [(start, cnt)]
  | a :: rest =>
    if cnt < csize ∧ a = start + cnt then chunksGo csize start (cnt + 1) rest
    else (start, cnt) :: chunksGo csize a 1 rest

/-- The chunk boundaries chosen by the transfer loop over the sorted address
list: each chunk is reported as (start address, byte count). -/
def chunkRuns (csize : Nat) : List Nat → List (Nat × Nat)
  | [] => []
  | a :: rest => chunksGo csize a 1 rest

/-! ### Initiator timing negotiation (`set_timing`, `adjust_transfer_parameters`,
and the responder's `T:` range check in `main.py`) -/

/-- The responder's acceptance test for a `T:` command
(`0.1 <= pulse_ms <= 1000` in `parse_command`). -/
def timingAccepted (p : ℚ) : Bool := (1 / 10 : ℚ) ≤ p && p ≤ 1000

/-- `adjust_transfer_parameters`: chunk size from the pulse width,
`min(128, max(1, int(4000 / (2 p + 10))))`. -/
def adjustChunkSize (p : ℚ) : ℤ :=
  min 128 (max 1 ⌊(4000 : ℚ) / (2 * p + 10)⌋)

/-- Initiator session state touched by `set_timing`. -/
structure Session where
  pulse_ms : ℚ
  chunk_size : ℤ
deriving DecidableEq, Repr

/-- `set_timing`: the command is sent unconditionally (first component: the
pulse values written to the transport); the responder's reply decides
success.  On `OK` the pulse width is stored and the chunk size recomputed;
on `ERR` a `RuntimeError` propagates and the session state is unchanged. -/
def set_timing (_st : Session) (p : ℚ) : List ℚ × Except Unit Session :=
  ([p], if timingAccepted p
    then .ok { pulse_ms := p, chunk_size := adjustChunkSize p }
    else .error ())

/-- Line number carried by each decoder error. -/
def HexError.line : HexError → Nat
  | .noSentinel n => n
  | .tooShort n => n
  | .invalidChars n => n
  | .badRecordType n => n
  | .dataLength n => n
  | .checksum n _ _ => n
  | .extLinearLen n => n
  | .extSegmentLen n => n
  | .startLinearLen n => n

/-! ## Helper lemmas -/

theorem and_255_eq_mod (x : Nat) : x &&& 255 = x % 256 := by
  have h := Nat.and_pow_two_sub_one_eq_mod x 8
  norm_num at h
  exact h

theorem memGet_cons (p : Nat × Nat) (rest : Mem) (b : Nat) :
    memGet (p :: rest) b = if p.1 = b then some p.2 else memGet rest b := rfl

theorem memGet_filter_ne (m : Mem) (a b : Nat) (h : b ≠ a) :
    memGet (m.filter (fun p => p.1 ≠ a)) b = memGet m b := by
  induction m with
  | nil => rfl
  | cons p rest ih =>
    by_cases hp : p.1 = a
    · rw [List.filter_cons_of_neg (by simp [hp]), ih, memGet_cons,
        if_neg (by omega)]
    · rw [List.filter_cons_of_pos (by simp [hp]), memGet_cons, memGet_cons, ih]

theorem memGet_memSet_self (m : Mem) (a v : Nat) : memGet (memSet m a v) a = some v := by
  unfold memSet
  rw [memGet_cons, if_pos rfl]

theorem memGet_memSet_ne (m : Mem) (a v b : Nat) (h : b ≠ a) :
    memGet (memSet m a v) b = memGet m b := by
  unfold memSet
  rw [memGet_cons, if_neg (by omega)]
  exact memGet_filter_ne m a b h

theorem memGet_storeDataGo_lt (data : List Nat) :
    ∀ (m : Mem) (addr a : Nat), a < addr →
      memGet (storeDataGo m addr data) a = memGet m a := by
  induction data with
  | nil => intro m addr a _; rfl
  | cons b rest ih =>
    intro m addr a h
    have h1 : storeDataGo m addr (b :: rest) =
        storeDataGo (memSet m addr b) (addr + 1) rest := rfl
    rw [h1, ih (memSet m addr b) (addr + 1) a (by omega)]
    exact memGet_memSet_ne m addr b a (by omega)

theorem memGet_storeDataGo (data : List Nat) :
    ∀ (m : Mem) (addr i : Nat), i < data.length →
      memGet (storeDataGo m addr data) (addr + i) = some (data.getD i 0) := by
  induction data with
  | nil => intro m addr i h; simp at h
  | cons b rest ih =>
    intro m addr i h
    have h1 : storeDataGo m addr (b :: rest) =
        storeDataGo (memSet m addr b) (addr + 1) rest := rfl
    cases i with
    | zero =>
      show memGet (storeDataGo (memSet m addr b) (addr + 1) rest) addr = some b
      rw [memGet_storeDataGo_lt rest (memSet m addr b) (addr + 1) addr (by omega),
        memGet_memSet_self]
    | succ j =>
      show memGet (storeDataGo (memSet m addr b) (addr + 1) rest) (addr + (j + 1))
        = some (rest.getD j 0)
      have h2 : addr + (j + 1) = (addr + 1) + j := by omega
      rw [h2, ih (memSet m addr b) (addr + 1) j (by simp at h; omega)]

theorem parseLinesGo_nil (st : LoaderState) (n : Nat) :
    parseLinesGo st n [] = (st, none) := rfl

theorem parseLinesGo_cons (st : LoaderState) (n : Nat) (l : List Char)
    (rest : List (List Char)) :
    parseLinesGo st n (l :: rest) =
      match parseStep st n l with
      | .error e => (st, some e)
      | .ok st' => parseLinesGo st' (n + 1) rest := rfl

theorem parseLinesGo_ok_append (pre : List (List Char)) :
    ∀ (st : LoaderState) (n : Nat) (st' : LoaderState) (l2 : List (List Char)),
      parseLinesGo st n pre = (st', none) →
      parseLinesGo st n (pre ++ l2) = parseLinesGo st' (n + pre.length) l2 := by
  induction pre with
  | nil =>
    intro st n st' l2 h
    rw [parseLinesGo_nil] at h
    simp only [Prod.mk.injEq] at h
    rw [List.nil_append, h.1, List.length_nil, Nat.add_zero]
  | cons l rest ih =>
    intro st n st' l2 h
    rw [parseLinesGo_cons] at h
    rw [List.cons_append, parseLinesGo_cons]
    cases hs : parseStep st n l with
    | error e => rw [hs] at h; simp at h
    | ok st2 =>
      rw [hs] at h
      simp only
      rw [ih st2 (n + 1) st' l2 h, List.length_cons]
      congr 1
      omega

theorem decodeLine_error_line (l : List Char) (n : Nat) (e : HexError)
    (h : decodeLine l n = .error e) : e.line = n := by
  cases l with
  | nil =>
    simp only [decodeLine] at h
    injection h with h1
    rw [← h1]
    rfl
  | cons c rest =>
    simp only [decodeLine] at h
    repeat' split at h
    all_goals first
      | (injection h with h1; rw [← h1]; rfl)
      | exact absurd h (by simp)

theorem decodeLine_ok_lineNumber (l : List Char) (n : Nat) (r : HexRecord)
    (h : decodeLine l n = .ok r) : r.lineNumber = n := by
  cases l with
  | nil => simp only [decodeLine] at h; exact absurd h (by simp)
  | cons c rest =>
    simp only [decodeLine] at h
    repeat' split at h
    all_goals first
      | (injection h with h1; subst h1; rfl)
      | exact absurd h (by simp)

theorem processRecord_error_line (st : LoaderState) (r : HexRecord) (e : HexError)
    (h : processRecord st r = .error e) : e.line = r.lineNumber := by
  unfold processRecord at h
  repeat' split at h
  all_goals first
    | (injection h with h1; rw [← h1]; rfl)
    | exact absurd h (by simp)

/-! ## Claim theorems -/

/-- C9: for every accepted W command with start address `a` and length
`n ∈ [1, 255]`, the responder applies data byte `i` to address
`(a + i) mod 256` for each `i` in ascending order, then sends exactly one
affirmative OK:WRITE response; a write starting at 0xFE with length 4
applies to addresses 0xFE, 0xFF, 0x00, 0x01. -/
theorem c9_write_wraparound (a n : Nat) (data : List Nat)
    (h1 : 1 ≤ n) (h2 : n ≤ 255) (hlen : data.length = n) :
    (handle_write_command a n data).1 =
      (List.range n).map (fun i => ((a + i) % 256, data.getD i 0)) ∧
    (handle_write_command a n data).2 = [.okWrite] ∧
    (handle_write_command 254 4 [1, 2, 3, 4]).1.map Prod.fst = [254, 255, 0, 1] := by
  refine ⟨?_, rfl, by decide⟩
  unfold handle_write_command
  simp only [List.map_inj_left]
  intro i _
  rw [and_255_eq_mod]

/-- C9 witness: concrete accepted write at 0xFE of length 4. -/
theorem c9_write_wraparound_witness :
    (handle_write_command 254 4 [1, 2, 3, 4]).1 =
      (List.range 4).map (fun i => ((254 + i) % 256, [1, 2, 3, 4].getD i 0)) :=
  (c9_write_wraparound 254 4 [1, 2, 3, 4] (by decide) (by decide) (by decide)).1

/-- C10: a StartSegmentAddr record (type 0x03) with a valid checksum is
accepted by the decoder but is a no-op on image state: processing it leaves
the memory cells, both extensions, and the entry point unchanged. -/
theorem c10_start_segment_noop :
    (∀ st r, r.recordType = RecordType.startSegmentAddr →
      processRecord st r = .ok st) ∧
    decodeLine [':', '0', '4', '0', '0', '0', '0', '0', '3',
        '1', '2', '3', '4', '5', '6', '7', '8', 'E', '5'] 1 =
      .ok ⟨4, 0, RecordType.startSegmentAddr, [18, 52, 86, 120], 229, 1⟩ := by
  refine ⟨fun st r h => ?_, by rfl⟩
  unfold processRecord
  rw [h]

/-- C10 witness: processing a concrete decoded StartSegmentAddr record
leaves the initial state unchanged. -/
theorem c10_start_segment_noop_witness :
    processRecord initState
      ⟨4, 0, RecordType.startSegmentAddr, [18, 52, 86, 120], 229, 1⟩ =
      .ok initState :=
  c10_start_segment_noop.1 initState _ rfl

/-- C4 counterexample: the claim says `set_timing` rejects an out-of-range
`pulse_ms` before sending any command; for the out-of-range value 2000 the
initiator nevertheless sends the timing command on the transport. -/
theorem c4_counterexample :
    (1000 : ℚ) < 2000 ∧
    (set_timing ⟨3 / 10, 128⟩ 2000).1 = [2000] ∧
    ((set_timing ⟨3 / 10, 128⟩ 2000).1 ≠ ([] : List ℚ)) := by
  refine ⟨by norm_num, rfl, by simp [set_timing]⟩

/-- C4 amended: `set_timing` performs no local validation: it sends the
timing command for every `pulse_ms`; the responder's range check decides the
outcome.  On acceptance (`pulse_ms ∈ [0.1, 1000]`) the value is stored as
session state and `chunk_size` is recomputed with the adaptive formula; on
rejection an error propagates and no state is stored. -/
theorem c4_set_timing (st : Session) (p : ℚ) :
    (set_timing st p).1 = [p] ∧
    (timingAccepted p = true →
      (set_timing st p).2 = .ok ⟨p, adjustChunkSize p⟩) ∧
    (timingAccepted p = false → (set_timing st p).2 = .error ()) := by
  refine ⟨rfl, fun h => ?_, fun h => ?_⟩
  · unfold set_timing
    rw [if_pos h]
  · unfold set_timing
    rw [if_neg (by rw [h]; exact Bool.false_ne_true)]

/-- C4 witness: an accepted pulse width of 1 ms is stored and yields the
recomputed chunk size 128. -/
theorem c4_set_timing_witness :
    (set_timing ⟨3 / 10, 128⟩ 1).2 = .ok ⟨1, adjustChunkSize 1⟩ :=
  (c4_set_timing ⟨3 / 10, 128⟩ 1).2.1 (by norm_num [timingAccepted])

/-- C3 counterexample: the claim says a buffer that contains a terminator
always yields its first complete line regardless of total size; a 1025-byte
buffer whose very first byte is the terminator is instead discarded
wholesale with no line produced. -/
theorem c3_counterexample :
    (10 :: List.replicate 1024 65).findIdx? (fun x => x = 10) = some 0 ∧
    read_line [] (10 :: List.replicate 1024 65) = ([], none) := by
  constructor
  · rfl
  · have hlen : (([] : List Nat) ++ (10 :: List.replicate 1024 65)).length = 1025 := by
      rw [List.nil_append, List.length_cons, List.length_replicate]
    unfold read_line
    rw [if_pos (by rw [hlen]; norm_num)]

/-- C3 amended: `read_line` discards the receive buffer wholesale, returning
no line, exactly when the accumulated buffer exceeds 1024 bytes — whether or
not it contains a terminator.  A buffer of at most 1024 bytes containing a
terminator yields its first complete line (carriage return stripped) when
that line decodes as valid text; with no terminator the buffer is retained
and no line is returned. -/
theorem c3_read_line (buf newData : List Nat) :
    (1024 < (buf ++ newData).length → read_line buf newData = ([], none)) ∧
    ((buf ++ newData).length ≤ 1024 →
      ∀ pos, (buf ++ newData).findIdx? (fun x => x = 10) = some pos →
        utf8Valid (stripCR ((buf ++ newData).take pos)) = true →
        read_line buf newData =
          ((buf ++ newData).drop (pos + 1),
            some (stripCR ((buf ++ newData).take pos)))) ∧
    ((buf ++ newData).length ≤ 1024 →
      (buf ++ newData).findIdx? (fun x => x = 10) = none →
      read_line buf newData = (buf ++ newData, none)) := by
  refine ⟨fun h => ?_, fun h pos hpos hval => ?_, fun h hnone => ?_⟩
  · unfold read_line
    rw [if_pos h]
  · unfold read_line
    rw [if_neg (by omega), hpos]
    simp only [hval, if_true]
  · unfold read_line
    rw [if_neg (by omega), hnone]

/-- C3 witness: a small buffer with a CRLF-terminated line yields that line
with the carriage return stripped and consumes it from the buffer. -/
theorem c3_read_line_witness :
    read_line [72] [105, 13, 10, 88] = ([88], some [72, 105]) := by
  have h := (c3_read_line [72] [105, 13, 10, 88]).2.1 (by decide) 3 (by decide)
    (by decide)
  simpa using h

/-- C7: the i-th payload byte of a Data record is stored at effective
address `(linear_extension <<< 16) + segment_extension + record.address + i`;
an ExtLinearAddr record replaces the linear extension with its 16-bit
big-endian payload, an ExtSegmentAddr record replaces the segment extension
with its 16-bit payload shifted left by 4, both extensions start a session
at 0, and the session `[ExtLinearAddr(0x1000), Data(addr=0x0020, [0xAB])]`
stores its byte at address 0x10000020. -/
theorem c7_extension_addressing :
    (∀ st (r : HexRecord), r.recordType = RecordType.data →
      processRecord st r = .ok { st with memory := (storeDataGo st.memory
        ((st.extLinear <<< 16) + st.extSegment + r.address) r.data) } ∧
      ∀ i, i < r.data.length →
        memGet (storeDataGo st.memory
            ((st.extLinear <<< 16) + st.extSegment + r.address) r.data)
          ((st.extLinear <<< 16) + st.extSegment + r.address + i) =
          some (r.data.getD i 0)) ∧
    (∀ st (r : HexRecord), r.recordType = RecordType.extLinearAddr →
      r.data.length = 2 →
      processRecord st r = .ok { st with
        extLinear := (r.data.getD 0 0) <<< 8 ||| r.data.getD 1 0 }) ∧
    (∀ st (r : HexRecord), r.recordType = RecordType.extSegmentAddr →
      r.data.length = 2 →
      processRecord st r = .ok { st with
        extSegment := ((r.data.getD 0 0) <<< 8 ||| r.data.getD 1 0) <<< 4 }) ∧
    initState.extLinear = 0 ∧ initState.extSegment = 0 ∧
    parseLines
      [[':', '0', '2', '0', '0', '0', '0', '0', '4', '1', '0', '0', '0', 'E', 'A'],
       [':', '0', '1', '0', '0', '2', '0', '0', '0', 'A', 'B', '3', '4']] =
      (⟨[(268435488, 171)], 4096, 0, none⟩, none) := by
  refine ⟨fun st r h => ⟨?_, fun i hi => ?_⟩, fun st r h hl => ?_,
    fun st r h hl => ?_, rfl, rfl, by rfl⟩
  · unfold processRecord
    rw [h]
  · exact memGet_storeDataGo r.data st.memory
      ((st.extLinear <<< 16) + st.extSegment + r.address) i hi
  · simp only [processRecord, h]
    rw [if_neg (by omega)]
  · simp only [processRecord, h]
    rw [if_neg (by omega)]

/-- C7 witness: a concrete Data record processed in the initial state stores
its only byte at the effective address. -/
theorem c7_extension_addressing_witness :
    memGet (storeDataGo initState.memory
        ((initState.extLinear <<< 16) + initState.extSegment + 32) [171])
      ((initState.extLinear <<< 16) + initState.extSegment + 32 + 0) =
      some ([171].getD 0 0) :=
  ((c7_extension_addressing.1 initState
    ⟨1, 32, RecordType.data, [171], 52, 2⟩ rfl).2) 0 (by decide)

/-- C2 counterexample: the claim says no partial image is exposed after a
failed session; after decoding fails on the second line, the loader's memory
still holds the byte stored by the first line. -/
theorem c2_counterexample :
    (parseLines [[':', '0', '1', '0', '0', '0', '0', '0', '0', '4', '1', 'B', 'E'],
      [':']]).2 = some (HexError.tooShort 2) ∧
    (parseLines [[':', '0', '1', '0', '0', '0', '0', '0', '0', '4', '1', 'B', 'E'],
      [':']]).1.memory = [(0, 65)] ∧
    [(0, 65)] ≠ ([] : Mem) := by
  exact ⟨rfl, rfl, by simp⟩

/-- C2 amended: a decode session aborts at the first failing line with a
fatal error carrying that line's 1-based number; the observable loader state
after the failure is exactly the state accumulated from the successfully
processed preceding lines, so bytes from those lines remain exposed in the
memory image. -/
theorem c2_session_abort (pre : List (List Char)) (l : List Char)
    (rest : List (List Char)) (stG : LoaderState) (e : HexError)
    (hpre : parseLinesGo initState 1 pre = (stG, none))
    (hfail : parseStep stG (pre.length + 1) l = .error e) :
    parseLines (pre ++ l :: rest) = (stG, some e) ∧
    e.line = pre.length + 1 := by
  constructor
  · unfold parseLines
    rw [parseLinesGo_ok_append pre initState 1 stG (l :: rest) hpre]
    rw [parseLinesGo_cons]
    rw [show 1 + pre.length = pre.length + 1 from by omega]
    rw [hfail]
  · unfold parseStep at hfail
    cases hd : decodeLine l (pre.length + 1) with
    | error e2 =>
      rw [hd] at hfail
      injection hfail with h1
      rw [← h1]
      exact decodeLine_error_line l (pre.length + 1) e2 hd
    | ok r =>
      rw [hd] at hfail
      rw [processRecord_error_line stG r e hfail]
      exact decodeLine_ok_lineNumber l (pre.length + 1) r hd

/-- The line begins with the record sentinel character. -/
def startsWithColon : List Char → Bool
  | c :: _ => c = ':'
  | [] => false

/-- The byte count declared in the line's first hex pair. -/
def declaredLen (l : List Char) : Nat := parseHex ((l.drop 1).take 2)

/-- The record-type code declared in the line's fourth field. -/
def declaredType (l : List Char) : Nat := parseHex (((l.drop 1).drop 6).take 2)

theorem hexVal_hexDigitChar : ∀ n, n < 16 → hexVal (hexDigitChar n) = n := by
  decide

theorem isHexChar_hexDigitChar (n : Nat) : isHexChar (hexDigitChar n) = true := by
  unfold hexDigitChar
  split <;> decide

theorem parseHex_toHex2 (n : Nat) (h : n < 256) : parseHex (toHex2 n) = n := by
  unfold toHex2 parseHex
  simp only [List.foldl_cons, List.foldl_nil]
  rw [hexVal_hexDigitChar _ (by omega), hexVal_hexDigitChar _ (by omega)]
  omega

theorem parseHex_toHex4 (n : Nat) (h : n < 65536) : parseHex (toHex4 n) = n := by
  unfold toHex4 parseHex
  simp only [List.foldl_cons, List.foldl_nil]
  rw [hexVal_hexDigitChar _ (by omega), hexVal_hexDigitChar _ (by omega),
    hexVal_hexDigitChar _ (by omega), hexVal_hexDigitChar _ (by omega)]
  omega

theorem toHex2_all_hex (n : Nat) : (toHex2 n).all isHexChar = true := by
  simp [toHex2, isHexChar_hexDigitChar]

theorem toHex4_all_hex (n : Nat) : (toHex4 n).all isHexChar = true := by
  simp [toHex4, isHexChar_hexDigitChar]

theorem flatMap_toHex2_all_hex (data : List Nat) :
    (data.flatMap toHex2).all isHexChar = true := by
  induction data with
  | nil => rfl
  | cons b rest ih =>
    simp [List.flatMap_cons, List.all_append, toHex2_all_hex, ih]

theorem flatMap_toHex2_length (data : List Nat) :
    (data.flatMap toHex2).length = 2 * data.length := by
  induction data with
  | nil => rfl
  | cons b rest ih =>
    simp only [List.flatMap_cons, List.length_append, List.length_cons, ih]
    simp [toHex2]
    omega

theorem hexPairs_cons₂ (a b : Char) (r : List Char) :
    hexPairs (a :: b :: r) = (16 * hexVal a + hexVal b) :: hexPairs r := rfl

theorem hexPairs_flatMap (data : List Nat) (h : ∀ b ∈ data, b < 256) :
    hexPairs (data.flatMap toHex2) = data := by
  induction data with
  | nil => rfl
  | cons b rest ih =>
    have hb : b < 256 := h b (by simp)
    rw [List.flatMap_cons]
    show hexPairs (hexDigitChar (b / 16 % 16) :: hexDigitChar (b % 16) ::
      rest.flatMap toHex2) = b :: rest
    rw [hexPairs_cons₂, ih (fun x hx => h x (by simp [hx]))]
    rw [hexVal_hexDigitChar _ (by omega), hexVal_hexDigitChar _ (by omega)]
    congr 1
    omega

theorem take_append_exact {α : Type} (l1 l2 : List α) (n : Nat)
    (h : l1.length = n) : (l1 ++ l2).take n = l1 := by
  subst h
  rw [List.take_append_of_le_length (Nat.le_refl _), List.take_length]

theorem drop_append_exact {α : Type} (l1 l2 : List α) (n : Nat)
    (h : l1.length = n) : (l1 ++ l2).drop n = l2 := by
  subst h
  rw [List.drop_append_of_le_length (Nat.le_refl _), List.drop_length,
    List.nil_append]

theorem sum_set_exchange (data : List Nat) :
    ∀ (i v : Nat), i < data.length →
      (data.set i v).sum + data.getD i 0 = data.sum + v := by
  induction data with
  | nil => intro i v hi; simp at hi
  | cons a rest ih =>
    intro i v hi
    cases i with
    | zero => simp [List.set]; omega
    | succ j =>
      show (a :: rest.set j v).sum + rest.getD j 0 = (a :: rest).sum + v
      have := ih j v (by simp at hi; omega)
      simp only [List.sum_cons]
      omega

theorem getD_mem_of_lt (data : List Nat) :
    ∀ i, i < data.length → data.getD i 0 ∈ data := by
  induction data with
  | nil => intro i hi; simp at hi
  | cons a rest ih =>
    intro i hi
    cases i with
    | zero => simp
    | succ j =>
      show rest.getD j 0 ∈ a :: rest
      exact List.mem_cons_of_mem a (ih j (by simp at hi; omega))

theorem calcChecksum_lt (len addr ty : Nat) (data : List Nat) :
    calcChecksum len addr ty data < 256 := by
  unfold calcChecksum
  omega

theorem calcChecksum_set_ne (len addr ty : Nat) (data : List Nat) (i k : Nat)
    (hi : i < data.length) (hk : k < 8) (hd : ∀ b ∈ data, b < 256) :
    calcChecksum len addr ty (data.set i (data.getD i 0 ^^^ 2 ^ k)) ≠
      calcChecksum len addr ty data := by
  have hb : data.getD i 0 < 256 := hd _ (getD_mem_of_lt data i hi)
  have hb' : data.getD i 0 ^^^ 2 ^ k < 256 := by
    have h1 : data.getD i 0 < 2 ^ 8 := hb
    have h2 : 2 ^ k < 2 ^ 8 := Nat.pow_lt_pow_of_lt (by omega) hk
    exact Nat.xor_lt_two_pow h1 h2
  have hne : data.getD i 0 ^^^ 2 ^ k ≠ data.getD i 0 := by
    intro hEq
    have h0 : data.getD i 0 ^^^ (data.getD i 0 ^^^ 2 ^ k) =
        data.getD i 0 ^^^ data.getD i 0 := by rw [hEq]
    rw [← Nat.xor_assoc, Nat.xor_self, Nat.zero_xor] at h0
    have : (0 : Nat) < 2 ^ k := Nat.pos_pow_of_pos k (by omega)
    omega
  have hsum := sum_set_exchange data i (data.getD i 0 ^^^ 2 ^ k) hi
  unfold calcChecksum
  omega

theorem decode_encode (len addr ty cks : Nat) (data : List Nat) (ln : Nat)
    (hlen : data.length = len) (hl : len < 256) (ha : addr < 65536)
    (ht : ty ≤ 5) (hd : ∀ b ∈ data, b < 256) (hc : cks < 256) :
    decodeLine (encodeLine len addr ty cks data) ln =
      if calcChecksum len addr ty data = cks
      then .ok ⟨len, addr, (RecordType.ofNat? ty).getD .data, data, cks, ln⟩
      else .error (.checksum ln (calcChecksum len addr ty data) cks) := by
  have hD : (data.flatMap toHex2).length = 2 * len := by
    rw [flatMap_toHex2_length, hlen]
  have h_take2 : (toHex2 len ++ (toHex4 addr ++ (toHex2 ty ++
      (data.flatMap toHex2 ++ toHex2 cks)))).take 2 = toHex2 len :=
    take_append_exact _ _ 2 rfl
  have h_drop2 : (toHex2 len ++ (toHex4 addr ++ (toHex2 ty ++
      (data.flatMap toHex2 ++ toHex2 cks)))).drop 2 =
      toHex4 addr ++ (toHex2 ty ++ (data.flatMap toHex2 ++ toHex2 cks)) :=
    drop_append_exact _ _ 2 rfl
  have h_drop6 : (toHex2 len ++ (toHex4 addr ++ (toHex2 ty ++
      (data.flatMap toHex2 ++ toHex2 cks)))).drop 6 =
      toHex2 ty ++ (data.flatMap toHex2 ++ toHex2 cks) := by
    rw [← List.append_assoc]
    exact drop_append_exact _ _ 6 rfl
  have h_drop8 : (toHex2 len ++ (toHex4 addr ++ (toHex2 ty ++
      (data.flatMap toHex2 ++ toHex2 cks)))).drop 8 =
      data.flatMap toHex2 ++ toHex2 cks := by
    rw [← List.append_assoc, ← List.append_assoc]
    exact drop_append_exact _ _ 8 rfl
  have h_dropC : (toHex2 len ++ (toHex4 addr ++ (toHex2 ty ++
      (data.flatMap toHex2 ++ toHex2 cks)))).drop (8 + 2 * len) =
      toHex2 cks := by
    rw [← List.drop_drop, h_drop8]
    exact drop_append_exact _ _ (2 * len) hD
  have hRlen : (toHex2 len ++ (toHex4 addr ++ (toHex2 ty ++
      (data.flatMap toHex2 ++ toHex2 cks)))).length = 10 + 2 * len := by
    simp only [List.length_append, hD]
    show 2 + (4 + (2 + (2 * len + 2))) = 10 + 2 * len
    omega
  have hAll : (toHex2 len ++ (toHex4 addr ++ (toHex2 ty ++
      (data.flatMap toHex2 ++ toHex2 cks)))).all isHexChar = true := by
    simp only [List.all_append, toHex2_all_hex, toHex4_all_hex,
      flatMap_toHex2_all_hex, Bool.and_self]
  have hty : RecordType.ofNat? ty ≠ none := by
    interval_cases ty <;> simp [RecordType.ofNat?]
  unfold encodeLine
  simp only [decodeLine]
  rw [if_neg (by simp)]
  rw [if_neg (by simp only [List.length_cons, hRlen]; omega)]
  rw [if_neg (by simp [hAll])]
  rw [h_take2, parseHex_toHex2 len hl]
  rw [h_drop2, take_append_exact (toHex4 addr) _ 4 rfl, parseHex_toHex4 addr ha]
  rw [h_drop6, take_append_exact (toHex2 ty) _ 2 rfl, parseHex_toHex2 ty (by omega)]
  rw [if_neg hty]
  rw [if_neg (by simp only [List.length_cons, hRlen]; omega)]
  rw [h_drop8, take_append_exact _ _ (2 * len) hD, hexPairs_flatMap data hd]
  rw [h_dropC]
  rw [show (toHex2 cks).take 2 = toHex2 cks from rfl, parseHex_toHex2 cks hc]
  by_cases hcs : calcChecksum len addr ty data = cks
  · rw [if_neg (by simp [hcs]), if_pos hcs]
  · rw [if_pos hcs, if_neg hcs]

theorem to_binary_some (m : Mem) (fill s e : Nat) (hm : m ≠ []) :
    to_binary m fill (some s) (some e) =
      (List.range (e + 1 - s)).map (fun i => (memGet m (s + i)).getD fill) := by
  unfold to_binary
  rw [if_neg (by simp [hm])]

/-- C1 counterexample: the claim says flatten returns a dense sequence of
length `end - start + 1` for every image once an explicit range is given,
and returns an empty sequence exactly when the image is empty and no range
is given; on the empty image with the explicit range [0, 5] the code
returns the empty sequence rather than six fill bytes. -/
theorem c1_counterexample :
    to_binary [] 255 (some 0) (some 5) = [] ∧
    (to_binary [] 255 (some 0) (some 5)).length ≠ 5 - 0 + 1 := by
  exact ⟨rfl, by decide⟩

/-- C1 amended: for every NONEMPTY image and explicit range
`start ≤ end`, flatten returns a dense sequence of length
`end - start + 1` whose i-th element is the stored byte at `start + i` when
present and `fill_byte` otherwise; for an empty image the result is the
empty sequence regardless of any explicit range; with no explicit range the
result is empty exactly when the image has no cells. -/
theorem c1_flatten :
    (∀ (m : Mem) (fill s e : Nat), m ≠ [] → s ≤ e →
      (to_binary m fill (some s) (some e)).length = e - s + 1 ∧
      (∀ i, i ≤ e - s →
        (to_binary m fill (some s) (some e))[i]? =
          some ((memGet m (s + i)).getD fill))) ∧
    (∀ (fill : Nat) (s? e? : Option Nat), to_binary [] fill s? e? = []) ∧
    (∀ (m : Mem) (fill : Nat), to_binary m fill none none = [] ↔ m = []) := by
  refine ⟨fun m fill s e hm hse => ⟨?_, fun i hi => ?_⟩,
    fun fill s? e? => rfl, fun m fill => ⟨?_, fun h => by subst h; rfl⟩⟩
  · rw [to_binary_some m fill s e hm]
    simp only [List.length_map, List.length_range]
    omega
  · rw [to_binary_some m fill s e hm]
    rw [List.getElem?_map, List.getElem?_range (by omega)]
    rfl
  · intro h
    by_contra hm
    have hkeys : memKeys m ≠ [] := by simp [memKeys, hm]
    obtain ⟨k, hk⟩ : ∃ k, (memKeys m).min? = some k := by
      cases hmin : (memKeys m).min? with
      | none => exact absurd (List.min?_eq_none_iff.mp hmin) hkeys
      | some k => exact ⟨k, rfl⟩
    obtain ⟨K, hK⟩ : ∃ K, (memKeys m).max? = some K := by
      cases hmax : (memKeys m).max? with
      | none => exact absurd (List.max?_eq_none_iff.mp hmax) hkeys
      | some K => exact ⟨K, rfl⟩
    have hkmem := (List.min?_eq_some_iff'.mp hk).1
    have hle : k ≤ K := (List.max?_eq_some_iff'.mp hK).2 k hkmem
    have hval : to_binary m fill none none =
        (List.range (K + 1 - k)).map (fun i => (memGet m (k + i)).getD fill) := by
      unfold to_binary
      rw [if_neg (by simp [hm]), hk, hK]
      rfl
    rw [hval] at h
    simp only [List.map_eq_nil_iff, List.range_eq_nil] at h
    omega

/-- C1 witness: a two-cell image flattened over the explicit range [2, 6]
has length 5 and exposes the stored byte at address 3 and the fill byte at
the gap address 4. -/
theorem c1_flatten_witness :
    (to_binary [(3, 7), (5, 9)] 255 (some 2) (some 6)).length = 6 - 2 + 1 ∧
    (to_binary [(3, 7), (5, 9)] 255 (some 2) (some 6))[1]? = some 7 ∧
    (to_binary [(3, 7), (5, 9)] 255 (some 2) (some 6))[2]? = some 255 := by
  have h := c1_flatten.1 [(3, 7), (5, 9)] 255 2 6 (by simp) (by omega)
  refine ⟨h.1, ?_, ?_⟩
  · have h2 := h.2 1 (by omega)
    simpa using h2
  · have h2 := h.2 2 (by omega)
    simpa using h2

theorem chunksGo_flatten (csize : Nat) (l : List Nat) :
    ∀ start cnt, (chunksGo csize start cnt l).flatMap
        (fun p => List.range' p.1 p.2) = List.range' start cnt ++ l := by
  induction l with
  | nil => intro start cnt; simp [chunksGo]
  | cons a rest ih =>
    intro start cnt
    unfold chunksGo
    by_cases h : cnt < csize ∧ a = start + cnt
    · rw [if_pos h, ih]
      have h1 : List.range' start (cnt + 1) = List.range' start cnt ++ [start + cnt] := by
        rw [List.range'_concat]
        simp
      rw [h1, ← h.2]
      simp
    · rw [if_neg h]
      rw [List.flatMap_cons, ih]
      simp [List.range'_one]

theorem chunksGo_sizes (csize : Nat) (l : List Nat) :
    ∀ start cnt, 1 ≤ cnt → cnt ≤ csize →
      ∀ p ∈ chunksGo csize start cnt l, 1 ≤ p.2 ∧ p.2 ≤ csize := by
  induction l with
  | nil =>
    intro start cnt h1 h2 p hp
    simp [chunksGo] at hp
    subst hp
    exact ⟨h1, h2⟩
  | cons a rest ih =>
    intro start cnt h1 h2 p hp
    unfold chunksGo at hp
    by_cases h : cnt < csize ∧ a = start + cnt
    · rw [if_pos h] at hp
      exact ih start (cnt + 1) (by omega) (by omega) p hp
    · rw [if_neg h] at hp
      rcases List.mem_cons.mp hp with h3 | h3
      · subst h3; exact ⟨h1, h2⟩
      · exact ih a 1 (by omega) (by omega) p h3

theorem chunksGo_head (csize : Nat) (l : List Nat) :
    ∀ start cnt, ∃ n, (chunksGo csize start cnt l).head? = some (start, n) := by
  induction l with
  | nil => intro start cnt; exact ⟨cnt, rfl⟩
  | cons a rest ih =>
    intro start cnt
    unfold chunksGo
    by_cases h : cnt < csize ∧ a = start + cnt
    · rw [if_pos h]; exact ih start (cnt + 1)
    · rw [if_neg h]; exact ⟨cnt, rfl⟩

theorem chunksGo_gap_chain (csize : Nat) (l : List Nat) :
    ∀ start cnt, List.Chain' (fun p q => p.2 < csize → q.1 ≠ p.1 + p.2)
      (chunksGo csize start cnt l) := by
  induction l with
  | nil => intro start cnt; simp [chunksGo]
  | cons a rest ih =>
    intro start cnt
    unfold chunksGo
    by_cases h : cnt < csize ∧ a = start + cnt
    · rw [if_pos h]; exact ih start (cnt + 1)
    · rw [if_neg h]
      apply List.chain'_cons'.mpr
      refine ⟨fun q hq => ?_, ih a 1⟩
      obtain ⟨n, hn⟩ := chunksGo_head csize rest a 1
      rw [hn] at hq
      injection hq with hq1
      subst hq1
      intro hlt
      intro hcontra
      exact h ⟨hlt, hcontra⟩

/-- C8: for every chunk size in [1, 128] and every sorted address list, the
transfer loop partitions the addresses in order into chunks, each a
consecutive run of at most `chunk_size` addresses; a chunk that closed below
capacity is never followed by a consecutive address (a gap forces a new
chunk); for addresses {0,1,2,5,6} with chunk size 4 the chunks are exactly
[0..2] and [5..6]. -/
theorem c8_chunking :
    (∀ (l : List Nat) (csize : Nat), 1 ≤ csize → csize ≤ 128 →
      List.Chain' (· < ·) l →
      (chunkRuns csize l).flatMap (fun p => List.range' p.1 p.2) = l ∧
      (∀ p ∈ chunkRuns csize l, 1 ≤ p.2 ∧ p.2 ≤ csize) ∧
      List.Chain' (fun p q => p.2 < csize → q.1 ≠ p.1 + p.2)
        (chunkRuns csize l)) ∧
    chunkRuns 4 [0, 1, 2, 5, 6] = [(0, 3), (5, 2)] := by
  refine ⟨fun l csize h1 h128 _hsorted => ?_, by rfl⟩
  cases l with
  | nil => exact ⟨rfl, by simp [chunkRuns], by simp [chunkRuns]⟩
  | cons a rest =>
    refine ⟨?_, ?_, ?_⟩
    · show (chunksGo csize a 1 rest).flatMap (fun p => List.range' p.1 p.2) = _
      rw [chunksGo_flatten csize rest a 1]
      simp [List.range'_one]
    · exact chunksGo_sizes csize rest a 1 (by omega) h1
    · exact chunksGo_gap_chain csize rest a 1

/-- C8 witness: the partition property applied to the concrete address set
{0,1,2,5,6} with chunk size 4. -/
theorem c8_chunking_witness :
    (chunkRuns 4 [0, 1, 2, 5, 6]).flatMap (fun p => List.range' p.1 p.2) =
      [0, 1, 2, 5, 6] :=
  (c8_chunking.1 [0, 1, 2, 5, 6] 4 (by decide) (by decide)
    (by simp [List.chain'_cons])).1

/-- C5 counterexample: the claim orders the hex-charset check before the
minimum-length check; the two-character line ":G" violates both, and the
code reports the too-short error, not the invalid-characters error the
claimed order would produce. -/
theorem c5_counterexample :
    decodeLine [':', 'G'] 1 = .error (HexError.tooShort 1) ∧
    HexError.tooShort 1 ≠ HexError.invalidChars 1 := by
  exact ⟨rfl, by simp⟩

/-- C5 amended: decode_line checks its preconditions in the order sentinel
character, then minimum length (11 characters), then hex charset, then
(after a valid record type) that the declared byte count fits the
characters present — each with a distinct error, and the earliest violated
check in THIS order is the one reported.  Stated as an exact
characterization of each error. -/
theorem c5_check_order (line : List Char) (ln : Nat) :
    (decodeLine line ln = .error (.noSentinel ln) ↔
      startsWithColon line = false) ∧
    (decodeLine line ln = .error (.tooShort ln) ↔
      startsWithColon line = true ∧ line.length < 11) ∧
    (decodeLine line ln = .error (.invalidChars ln) ↔
      startsWithColon line = true ∧ 11 ≤ line.length ∧
      (line.drop 1).all isHexChar = false) ∧
    (decodeLine line ln = .error (.dataLength ln) ↔
      startsWithColon line = true ∧ 11 ≤ line.length ∧
      (line.drop 1).all isHexChar = true ∧
      (RecordType.ofNat? (declaredType line)).isSome = true ∧
      line.length < 11 + 2 * declaredLen line) := by
  cases line with
  | nil =>
    refine ⟨?_, ?_, ?_, ?_⟩ <;> simp [decodeLine, startsWithColon]
  | cons c rest =>
    by_cases hc : c = ':'
    · subst hc
      simp only [decodeLine, startsWithColon, declaredType, declaredLen,
        List.drop_succ_cons, List.drop_zero]
      rw [if_neg (by simp)]
      by_cases hlen : (':' :: rest).length < 11
      · rw [if_pos hlen]
        refine ⟨by simp, ?_, ?_, ?_⟩
        · simp only [List.length_cons] at hlen
          simp
          omega
        · simp only [iff_iff_implies_and_implies]
          refine ⟨fun h => absurd h (by simp), fun h => ?_⟩
          obtain ⟨-, h2, -⟩ := h
          exact absurd h2 (by omega)
        · simp only [iff_iff_implies_and_implies]
          refine ⟨fun h => absurd h (by simp), fun h => ?_⟩
          obtain ⟨-, h2, -⟩ := h
          exact absurd h2 (by omega)
      · rw [if_neg hlen]
        by_cases hhex : rest.all isHexChar
        · rw [if_neg (by simp [hhex])]
          by_cases hty : RecordType.ofNat? (parseHex ((rest.drop 6).take 2)) = none
          · rw [if_pos hty]
            refine ⟨by simp, ?_, by simp [hhex], ?_⟩
            · simp only [iff_iff_implies_and_implies]
              refine ⟨fun h => absurd h (by simp), fun h => ?_⟩
              obtain ⟨-, h2⟩ := h
              exact absurd h2 (by omega)
            · simp only [iff_iff_implies_and_implies]
              refine ⟨fun h => absurd h (by simp), fun h => ?_⟩
              obtain ⟨-, -, -, h4, -⟩ := h
              rw [hty] at h4
              simp at h4
          · rw [if_neg hty]
            by_cases hdl : (':' :: rest).length < 9 + 2 * parseHex (rest.take 2) + 2
            · rw [if_pos hdl]
              refine ⟨by simp, ?_, by simp [hhex], ?_⟩
              · simp only [iff_iff_implies_and_implies]
                refine ⟨fun h => absurd h (by simp), fun h => ?_⟩
                obtain ⟨-, h2⟩ := h
                exact absurd h2 (by omega)
              · constructor
                · intro _
                  refine ⟨by simp, by omega, hhex,
                    Option.isSome_iff_ne_none.mpr hty, by omega⟩
                · intro _
                  rfl
            · rw [if_neg hdl]
              by_cases hcs : calcChecksum (parseHex (rest.take 2))
                  (parseHex ((rest.drop 2).take 4))
                  (parseHex ((rest.drop 6).take 2))
                  (hexPairs ((rest.drop 8).take (2 * parseHex (rest.take 2)))) ≠
                  parseHex ((rest.drop (8 + 2 * parseHex (rest.take 2))).take 2)
              · rw [if_pos hcs]
                refine ⟨by simp, ?_, ?_, ?_⟩
                · simp only [iff_iff_implies_and_implies]
                  refine ⟨fun h => absurd h (by simp), fun h => ?_⟩
                  obtain ⟨-, h2⟩ := h
                  exact absurd h2 (by omega)
                · simp only [iff_iff_implies_and_implies]
                  refine ⟨fun h => absurd h (by simp), fun h => ?_⟩
                  obtain ⟨-, -, h3⟩ := h
                  rw [hhex] at h3
                  simp at h3
                · simp only [iff_iff_implies_and_implies]
                  refine ⟨fun h => absurd h (by simp), fun h => ?_⟩
                  obtain ⟨-, -, -, -, h5⟩ := h
                  exact absurd h5 (by omega)
              · rw [if_neg hcs]
                refine ⟨by simp, ?_, ?_, ?_⟩
                · simp only [iff_iff_implies_and_implies]
                  refine ⟨fun h => absurd h (by simp), fun h => ?_⟩
                  obtain ⟨-, h2⟩ := h
                  exact absurd h2 (by omega)
                · simp only [iff_iff_implies_and_implies]
                  refine ⟨fun h => absurd h (by simp), fun h => ?_⟩
                  obtain ⟨-, -, h3⟩ := h
                  rw [hhex] at h3
                  simp at h3
                · simp only [iff_iff_implies_and_implies]
                  refine ⟨fun h => absurd h (by simp), fun h => ?_⟩
                  obtain ⟨-, -, -, -, h5⟩ := h
                  exact absurd h5 (by omega)
        · rw [if_pos (by simp [hhex])]
          refine ⟨by simp, ?_, ?_, ?_⟩
          · simp only [iff_iff_implies_and_implies]
            refine ⟨fun h => absurd h (by simp), fun h => ?_⟩
            obtain ⟨-, h2⟩ := h
            exact absurd h2 (by omega)
          · simp only [List.length_cons] at hlen
            simp [hhex]
            omega
          · simp only [iff_iff_implies_and_implies]
            refine ⟨fun h => absurd h (by simp), fun h => ?_⟩
            obtain ⟨-, -, h3, -⟩ := h
            exact absurd h3 hhex
    · simp only [decodeLine, startsWithColon]
      rw [if_pos hc]
      refine ⟨by simp [hc], ?_, ?_, ?_⟩ <;>
        (simp only [iff_iff_implies_and_implies];
         exact ⟨fun h => absurd h (by simp),
           fun h => absurd h.1 (by simp [hc])⟩)

/-- C6: for every structurally well-formed record line, decoding succeeds
iff the declared checksum equals the two's complement of
`byte_count + address_hi + address_lo + record_kind + Σpayload` mod 256; on
success the decoded byte count, address, type, and payload equal the
encoded fields exactly; on mismatch decoding fails with a checksum error
carrying the expected and observed values; and flipping any payload bit
without updating the checksum causes a checksum error. -/
theorem c6_checksum_law (len addr ty cks : Nat) (data : List Nat)
    (hlen : data.length = len) (hl : len < 256) (ha : addr < 65536)
    (ht : ty ≤ 5) (hd : ∀ b ∈ data, b < 256) (hc : cks < 256) :
    ((∃ r, decodeLine (encodeLine len addr ty cks data) 1 = .ok r) ↔
      cks = calcChecksum len addr ty data) ∧
    (cks = calcChecksum len addr ty data →
      decodeLine (encodeLine len addr ty cks data) 1 =
        .ok ⟨len, addr, (RecordType.ofNat? ty).getD .data, data, cks, 1⟩) ∧
    (cks ≠ calcChecksum len addr ty data →
      decodeLine (encodeLine len addr ty cks data) 1 =
        .error (.checksum 1 (calcChecksum len addr ty data) cks)) ∧
    (∀ i k, i < data.length → k < 8 →
      decodeLine (encodeLine len addr ty (calcChecksum len addr ty data)
          (data.set i (data.getD i 0 ^^^ 2 ^ k))) 1 =
        .error (.checksum 1
          (calcChecksum len addr ty (data.set i (data.getD i 0 ^^^ 2 ^ k)))
          (calcChecksum len addr ty data))) := by
  have hdec := decode_encode len addr ty cks data 1 hlen hl ha ht hd hc
  refine ⟨⟨fun hex => ?_, fun h => ?_⟩, fun h => ?_, fun h => ?_,
    fun i k hik hk => ?_⟩
  · by_contra hne
    rw [if_neg (fun hh => hne hh.symm)] at hdec
    obtain ⟨r, hr⟩ := hex
    rw [hdec] at hr
    simp at hr
  · exact ⟨_, by rw [hdec, if_pos h.symm]⟩
  · rw [hdec, if_pos h.symm]
  · rw [hdec, if_neg (fun hh => h hh.symm)]
  · have hlen' : (data.set i (data.getD i 0 ^^^ 2 ^ k)).length = len := by
      rw [List.length_set, hlen]
    have hd' : ∀ b ∈ data.set i (data.getD i 0 ^^^ 2 ^ k), b < 256 := by
      intro b hb
      rcases List.mem_or_eq_of_mem_set hb with h1 | h1
      · exact hd b h1
      · subst h1
        have h1 : data.getD i 0 < 2 ^ 8 := hd _ (getD_mem_of_lt data i hik)
        have h2 : 2 ^ k < 2 ^ 8 := Nat.pow_lt_pow_of_lt (by omega) hk
        exact Nat.xor_lt_two_pow h1 h2
    have hdec' := decode_encode len addr ty (calcChecksum len addr ty data)
      (data.set i (data.getD i 0 ^^^ 2 ^ k)) 1 hlen' hl ha ht hd'
      (calcChecksum_lt len addr ty data)
    rw [hdec', if_neg (calcChecksum_set_ne len addr ty data i k hik hk hd)]

/-- C6 witness: a concrete one-byte record with the correct checksum 0xBE
decodes to exactly its encoded fields. -/
theorem c6_checksum_law_witness :
    decodeLine (encodeLine 1 0 0 190 [65]) 1 =
      .ok ⟨1, 0, RecordType.data, [65], 190, 1⟩ := by
  have h := (c6_checksum_law 1 0 0 190 [65] rfl (by omega) (by omega)
    (by omega) (by intro b hb; simp at hb; omega) (by omega)).2.1 (by decide)
  simpa using h

/-- C2 witness: a session whose first line stores a byte and whose second
line is malformed ends with the error for line 2 while the partial memory
from line 1 remains observable. -/
theorem c2_session_abort_witness :
    parseLines [[':', '0', '1', '0', '0', '0', '0', '0', '0', '4', '1', 'B', 'E'],
      [':']] = (⟨[(0, 65)], 0, 0, none⟩, some (HexError.tooShort 2)) ∧
    (HexError.tooShort 2).line = 2 := by
  have h := c2_session_abort
    [[':', '0', '1', '0', '0', '0', '0', '0', '0', '4', '1', 'B', 'E']]
    [':'] [] ⟨[(0, 65)], 0, 0, none⟩ (HexError.tooShort 2) (by rfl) (by rfl)
  simpa using h

end Z80Hex
